import Mathlib

/-!
Verification of Scripts/minifyShadersFolder.py (shader minifier and packer).

The whole program is one Python script.  Strings are modelled as List Char
(ASCII subset), filesystem modification times as Nat, and the command line as
a list of strings (argv, with the script name at index 0).  Fatal paths that
call sys.exit are modelled by Option / absent results.  Every definition below
cites the source lines it embeds.
-/

namespace MinifyShaders

/-- The whitespace class of the regex character class from line 188,
made of every whitespace character except carriage return and newline.
Restricted to the ASCII characters: space, tab, vertical tab, form feed. -/
def ws (c : Char) : Bool :=
  c = ' ' || c = '\t' || c = '\x0B' || c = '\x0C'

/-- One-pass run-collapsing of the regex substitution on line 188:
every maximal run of characters in the class of ws becomes a single space.
A character is dropped when the next one is also in the class; the final
character of a run is rendered as one space. -/
def collapse : List Char → List Char
  | [] => []
  | [c] => [if ws c then ' ' else c]
  | c :: d :: r =>
    if ws c && ws d then collapse (d :: r)
    else (if ws c then ' ' else c) :: collapse (d :: r)

/-- Per-character substitution combinator: the image of each character is
spliced in place.  Each regex substitution with a one-character pattern on
lines 184, 186 and 190 is an instance of this. -/
def escMap (g : Char → List Char) : List Char → List Char
  | [] => []
  | c :: r => g c ++ escMap g r

/-- Line 184: a backslash becomes two backslashes. -/
def bsChar (c : Char) : List Char :=
  if c = '\\' then ['\\', '\\'] else [c]

/-- Line 186: a newline character becomes the two-character text backslash-n. -/
def nlChar (c : Char) : List Char :=
  if c = '\n' then ['\\', 'n'] else [c]

/-- Line 190: a double quote becomes backslash followed by the quote. -/
def qChar (c : Char) : List Char :=
  if c = '"' then ['\\', '"'] else [c]

/-- Line 184: double every backslash in the line. -/
def bsdouble : List Char → List Char := escMap bsChar

/-- Line 186: escape every newline in the line. -/
def nlesc : List Char → List Char := escMap nlChar

/-- Line 190: escape every double quote in the line. -/
def qesc : List Char → List Char := escMap qChar

/-- Whether the two-character comment marker, two forward slashes in a row,
occurs somewhere in the list.  Used to model the regex of line 182. -/
def hasMarker : List Char → Bool
  | [] => false
  | [_] => false
  | c :: d :: r => if c = '/' ∧ d = '/' then true else hasMarker (d :: r)

/-- The part of the list strictly before the first occurrence of the
comment marker (the whole list when there is none). -/
def truncAtMarker : List Char → List Char
  | [] => []
  | [c] => [c]
  | c :: d :: r => if c = '/' ∧ d = '/' then [] else c :: truncAtMarker (d :: r)

/-- Line 182: the substitution of the regex matching a double slash followed
by the rest of the line and its newline, replaced by a bare newline.  The
program applies it to single lines as produced by readlines and to the
inserted line directive, whose only newline, if any, is the final character:
on such a line the regex matches exactly when the line both contains the
marker and ends with a newline, and the match runs from the first marker
through that final newline. -/
def stripLineComment (ln : List Char) : List Char :=
  if hasMarker ln = true ∧ ln.getLast? = some '\n' then
    truncAtMarker ln ++ ['\n']
  else ln

/-- Lines 180-190: the per-line transform in its source order: strip the
line comment, double backslashes, escape newlines, collapse whitespace runs,
escape quotes. -/
def minifyLine (ln : List Char) : List Char :=
  qesc (collapse (nlesc (bsdouble (stripLineComment ln))))

/-- Reversal of the escaping, as the round-trip property of the spec asks:
a single left-to-right scan that turns the two-character sequences
backslash-backslash, backslash-n and backslash-quote back into one
backslash, one newline and one quote, exactly as the host-language lexer
reads the emitted literal. -/
def unescape : List Char → List Char
  | [] => []
  | [c] => [c]
  | c :: d :: r =>
    if c = '\\' then
      if d = '\\' then '\\' :: unescape r
      else if d = 'n' then '\n' :: unescape r
      else if d = '"' then '"' :: unescape r
      else c :: unescape (d :: r)
    else c :: unescape (d :: r)

section EscapeLemmas

theorem escMap_append (g : Char → List Char) (a b : List Char) :
    escMap g (a ++ b) = escMap g a ++ escMap g b := by
  induction a with
  | nil => rfl
  | cons c r ih => simp [escMap, ih]

theorem ws_ne_backslash {c : Char} (h : ws c = true) : c ≠ '\\' := by
  rcases Bool.or_eq_true_iff.mp h with h' | h'
  · rcases Bool.or_eq_true_iff.mp h' with h'' | h''
    · rcases Bool.or_eq_true_iff.mp h'' with h3 | h3 <;>
        simp_all [decide_eq_true_eq]
    · simp_all [decide_eq_true_eq]
  · simp_all [decide_eq_true_eq]

theorem ws_ne_newline {c : Char} (h : ws c = true) : c ≠ '\n' := by
  rcases Bool.or_eq_true_iff.mp h with h' | h'
  · rcases Bool.or_eq_true_iff.mp h' with h'' | h''
    · rcases Bool.or_eq_true_iff.mp h'' with h3 | h3 <;>
        simp_all [decide_eq_true_eq]
    · simp_all [decide_eq_true_eq]
  · simp_all [decide_eq_true_eq]

theorem ws_ne_quote {c : Char} (h : ws c = true) : c ≠ '"' := by
  rcases Bool.or_eq_true_iff.mp h with h' | h'
  · rcases Bool.or_eq_true_iff.mp h' with h'' | h''
    · rcases Bool.or_eq_true_iff.mp h'' with h3 | h3 <;>
        simp_all [decide_eq_true_eq]
    · simp_all [decide_eq_true_eq]
  · simp_all [decide_eq_true_eq]

theorem collapse_cons_of_not_ws {c : Char} (h : ws c = false) (l : List Char) :
    collapse (c :: l) = c :: collapse l := by
  cases l with
  | nil => simp [collapse, h]
  | cons d r => simp [collapse, h]

theorem collapse_append_of_not_ws (ds : List Char)
    (h : ∀ d ∈ ds, ws d = false) (l : List Char) :
    collapse (ds ++ l) = ds ++ collapse l := by
  induction ds with
  | nil => rfl
  | cons d ds ih =>
    have hd : ws d = false := h d (List.mem_cons_self d ds)
    have hds : ∀ x ∈ ds, ws x = false := fun x hx => h x (List.mem_cons_of_mem d hx)
    simp only [List.cons_append, collapse_cons_of_not_ws hd, ih hds]

/-- Collapsing whitespace commutes with every per-character substitution that
fixes whitespace characters and maps every other character to a nonempty
block of non-whitespace characters.  Lines 184 and 186 are such
substitutions, so applying the whitespace collapse of line 188 after them,
as the source does, is the same as applying it before them. -/
theorem collapse_escMap (g : Char → List Char)
    (hws : ∀ c, ws c = true → g c = [c])
    (hnws : ∀ c, ws c = false → g c ≠ [] ∧ ∀ d ∈ g c, ws d = false) :
    ∀ y, collapse (escMap g y) = escMap g (collapse y) := by
  intro y
  induction y with
  | nil => rfl
  | cons c y' ih =>
    by_cases hc : ws c = true
    · -- whitespace head is kept as a singleton by g
      rw [show escMap g (c :: y') = g c ++ escMap g y' from rfl, hws c hc,
        List.singleton_append]
      cases y' with
      | nil =>
        simp [escMap, collapse, hc, hws ' ' (by decide)]
      | cons d r =>
        by_cases hd : ws d = true
        · have : escMap g (d :: r) = d :: escMap g r := by
            rw [show escMap g (d :: r) = g d ++ escMap g r from rfl, hws d hd]
            rfl
          rw [this]
          have hcd : collapse (c :: d :: escMap g r) = collapse (d :: escMap g r) := by
            simp [collapse, hc, hd]
          rw [hcd, ← this, ih]
          have : collapse (c :: d :: r) = collapse (d :: r) := by
            simp [collapse, hc, hd]
          rw [this]
        · have hdf : ws d = false := by simpa using hd
          obtain ⟨hne, hall⟩ := hnws d hdf
          obtain ⟨e, es, hge⟩ : ∃ e es, g d = e :: es := by
            cases hgd : g d with
            | nil => exact absurd hgd hne
            | cons e es => exact ⟨e, es, rfl⟩
          have hef : ws e = false := hall e (by rw [hge]; exact List.mem_cons_self e es)
          have hsplit : escMap g (d :: r) = e :: (es ++ escMap g r) := by
            rw [show escMap g (d :: r) = g d ++ escMap g r from rfl, hge]
            rfl
          rw [hsplit]
          have h1 : collapse (c :: e :: (es ++ escMap g r)) =
              ' ' :: collapse (e :: (es ++ escMap g r)) := by
            simp [collapse, hc, hef]
          rw [h1, ← hsplit, ih]
          have h2 : collapse (c :: d :: r) = ' ' :: collapse (d :: r) := by
            simp [collapse, hc, hdf]
          rw [h2]
          rw [show escMap g (' ' :: collapse (d :: r)) =
              g ' ' ++ escMap g (collapse (d :: r)) from rfl, hws ' ' (by decide)]
          rfl
    · have hcf : ws c = false := by simpa using hc
      obtain ⟨hne, hall⟩ := hnws c hcf
      rw [show escMap g (c :: y') = g c ++ escMap g y' from rfl]
      rw [collapse_append_of_not_ws (g c) hall, ih,
        collapse_cons_of_not_ws hcf]
      rfl

/-- A character other than backslash at the head of the scan is copied
verbatim by the unescaping pass. -/
theorem unescape_cons_of_ne {c : Char} (h : c ≠ '\\') (r : List Char) :
    unescape (c :: r) = c :: unescape r := by
  cases r with
  | nil => simp [unescape]
  | cons d r' => simp [unescape, h]

/-- The three escaping passes of lines 184, 186 and 190, applied in the
source order, are inverted by one left-to-right unescaping scan, with any
continuation appended after the escaped block. -/
theorem unescape_escaped (z : List Char) :
    ∀ b, unescape (qesc (nlesc (bsdouble z)) ++ b) = z ++ unescape b := by
  induction z with
  | nil => intro b; rfl
  | cons c z' ih =>
    intro b
    have hsplit : qesc (nlesc (bsdouble (c :: z'))) =
        qesc (nlesc (bsChar c)) ++ qesc (nlesc (bsdouble z')) := by
      rw [show bsdouble (c :: z') = bsChar c ++ bsdouble z' from rfl]
      rw [show nlesc (bsChar c ++ bsdouble z') =
        nlesc (bsChar c) ++ nlesc (bsdouble z') from escMap_append _ _ _]
      exact escMap_append _ _ _
    rw [hsplit, List.append_assoc]
    by_cases h1 : c = '\\'
    · subst h1
      have : qesc (nlesc (bsChar '\\')) = ['\\', '\\'] := by decide
      rw [this]
      show unescape ('\\' :: '\\' :: (qesc (nlesc (bsdouble z')) ++ b)) = _
      rw [show unescape ('\\' :: '\\' :: (qesc (nlesc (bsdouble z')) ++ b)) =
        '\\' :: unescape (qesc (nlesc (bsdouble z')) ++ b) from by simp [unescape]]
      rw [ih b]
      rfl
    · by_cases h2 : c = '\n'
      · subst h2
        have : qesc (nlesc (bsChar '\n')) = ['\\', 'n'] := by decide
        rw [this]
        show unescape ('\\' :: 'n' :: (qesc (nlesc (bsdouble z')) ++ b)) = _
        rw [show unescape ('\\' :: 'n' :: (qesc (nlesc (bsdouble z')) ++ b)) =
          '\n' :: unescape (qesc (nlesc (bsdouble z')) ++ b) from by simp [unescape]]
        rw [ih b]
        rfl
      · by_cases h3 : c = '"'
        · subst h3
          have : qesc (nlesc (bsChar '"')) = ['\\', '"'] := by decide
          rw [this]
          show unescape ('\\' :: '"' :: (qesc (nlesc (bsdouble z')) ++ b)) = _
          rw [show unescape ('\\' :: '"' :: (qesc (nlesc (bsdouble z')) ++ b)) =
            '"' :: unescape (qesc (nlesc (bsdouble z')) ++ b) from by simp [unescape]]
          rw [ih b]
          rfl
        · have : qesc (nlesc (bsChar c)) = [c] := by
            simp [bsChar, nlChar, qChar, qesc, nlesc, escMap, h1, h2, h3]
          rw [this]
          show unescape (c :: (qesc (nlesc (bsdouble z')) ++ b)) = _
          rw [unescape_cons_of_ne h1, ih b]
          rfl

theorem bsChar_ws {c : Char} (h : ws c = true) : bsChar c = [c] := by
  simp [bsChar, ws_ne_backslash h]

theorem nlChar_ws {c : Char} (h : ws c = true) : nlChar c = [c] := by
  simp [nlChar, ws_ne_newline h]

theorem bsChar_not_ws {c : Char} (h : ws c = false) :
    bsChar c ≠ [] ∧ ∀ d ∈ bsChar c, ws d = false := by
  by_cases hc : c = '\\'
  · subst hc
    refine ⟨by simp [bsChar], ?_⟩
    intro d hd
    have hd' : d = '\\' := by
      simp [bsChar] at hd
      exact hd
    subst hd'
    decide
  · simp only [bsChar, if_neg hc]
    exact ⟨by simp, fun d hd => by rcases List.mem_singleton.mp hd with rfl; exact h⟩

theorem nlChar_not_ws {c : Char} (h : ws c = false) :
    nlChar c ≠ [] ∧ ∀ d ∈ nlChar c, ws d = false := by
  by_cases hc : c = '\n'
  · subst hc
    refine ⟨by simp [nlChar], ?_⟩
    intro d hd
    have hd' : d = '\\' ∨ d = 'n' := by
      simp [nlChar] at hd
      exact hd
    rcases hd' with rfl | rfl <;> decide
  · simp only [nlChar, if_neg hc]
    exact ⟨by simp, fun d hd => by rcases List.mem_singleton.mp hd with rfl; exact h⟩

/-- The whitespace collapse of line 188, although applied by the source after
the backslash doubling and the newline escaping, commutes past both. -/
theorem collapse_nlesc_bsdouble (z : List Char) :
    collapse (nlesc (bsdouble z)) = nlesc (bsdouble (collapse z)) := by
  rw [show collapse (nlesc (bsdouble z)) = nlesc (collapse (bsdouble z)) from
    collapse_escMap nlChar (fun c h => nlChar_ws h) (fun c h => nlChar_not_ws h)
      (bsdouble z)]
  rw [show collapse (bsdouble z) = bsdouble (collapse z) from
    collapse_escMap bsChar (fun c h => bsChar_ws h) (fun c h => bsChar_not_ws h) z]

/-- Unescaping the full per-line transform of lines 180-190, with any
continuation, recovers the comment-stripped and whitespace-collapsed line. -/
theorem unescape_minifyLine (ln b : List Char) :
    unescape (minifyLine ln ++ b) =
      collapse (stripLineComment ln) ++ unescape b := by
  unfold minifyLine
  rw [collapse_nlesc_bsdouble]
  exact unescape_escaped (collapse (stripLineComment ln)) b

end EscapeLemmas

section MarkerLemmas

theorem hasMarker_of_contains (pre rest : List Char) :
    hasMarker (pre ++ '/' :: '/' :: rest) = true := by
  induction pre with
  | nil => simp [hasMarker]
  | cons c p ih =>
    cases p with
    | nil =>
      show hasMarker (c :: '/' :: '/' :: rest) = true
      simp only [hasMarker]
      split
      · rfl
      · simp [hasMarker]
    | cons e p' =>
      show hasMarker (c :: e :: (p' ++ '/' :: '/' :: rest)) = true
      simp only [hasMarker]
      split
      · rfl
      · exact ih

theorem truncAtMarker_append (pre rest : List Char)
    (h : hasMarker (pre ++ ['/']) = false) :
    truncAtMarker (pre ++ '/' :: '/' :: rest) = pre := by
  induction pre with
  | nil => simp [truncAtMarker]
  | cons c p ih =>
    cases p with
    | nil =>
      have hc : ¬(c = '/') := by
        intro hc
        subst hc
        simp [hasMarker] at h
      show truncAtMarker (c :: '/' :: '/' :: rest) = [c]
      simp only [truncAtMarker]
      rw [if_neg (by simp [hc])]
      simp [truncAtMarker]
    | cons e p' =>
      have h' : hasMarker ((e :: p') ++ ['/']) = false ∧ ¬(c = '/' ∧ e = '/') := by
        by_cases hce : c = '/' ∧ e = '/'
        · exfalso
          have : hasMarker ((c :: e :: p') ++ ['/']) = true := by
            show hasMarker (c :: e :: (p' ++ ['/'])) = true
            simp only [hasMarker]
            rw [if_pos hce]
          rw [this] at h
          exact Bool.true_eq_false.mp h
        · refine ⟨?_, hce⟩
          have : hasMarker ((c :: e :: p') ++ ['/']) =
              hasMarker (e :: (p' ++ ['/'])) := by
            show hasMarker (c :: e :: (p' ++ ['/'])) = _
            simp only [hasMarker]
            rw [if_neg hce]
          rw [this] at h
          exact h
      show truncAtMarker (c :: e :: (p' ++ '/' :: '/' :: rest)) = c :: e :: p'
      simp only [truncAtMarker]
      rw [if_neg h'.2]
      rw [show e :: (p' ++ '/' :: '/' :: rest) = (e :: p') ++ '/' :: '/' :: rest
        from rfl, ih h'.1]

end MarkerLemmas

/-- C2: for any input line (a line as produced by readlines or the inserted
line directive, whose only newline, if present, is its final character),
unescaping the literal produced by the minification transform of lines
180-190 yields exactly the comment-stripped, whitespace-collapsed form of
that original line. -/
theorem escape_roundtrip (ln : List Char) (hln : '\n' ∉ ln.dropLast) :
    unescape (minifyLine ln) = collapse (stripLineComment ln) := by
  have h := unescape_minifyLine ln []
  rw [show unescape [] = [] from rfl, List.append_nil] at h
  simpa using h

/-- Witness for escape_roundtrip at a concrete line with whitespace runs, a
backslash, a quote and a trailing comment. -/
theorem escape_roundtrip_witness :
    unescape (minifyLine ("a  \\ \"b\"\t//c\n".toList)) =
      collapse (stripLineComment ("a  \\ \"b\"\t//c\n".toList)) :=
  escape_roundtrip ("a  \\ \"b\"\t//c\n".toList) (by decide)

/-- C4: comment stripping on a newline-terminated line removes everything
from the double-slash marker to the end of the line while keeping the line
terminator of the replacement, so the line collapses to its pre-marker text
followed by a bare newline; in particular a fully commented line becomes an
empty line instead of vanishing.  The hypotheses say the marker we name is
the first one (no marker inside pre, and pre does not end in a slash that
would combine with ours) and that pre and com are the two halves of one
single line. -/
theorem comment_strip_collapses_line (pre com : List Char)
    (hpre : hasMarker (pre ++ ['/']) = false)
    (hnlp : '\n' ∉ pre) (hnlc : '\n' ∉ com) :
    stripLineComment (pre ++ '/' :: '/' :: (com ++ ['\n'])) = pre ++ ['\n'] := by
  unfold stripLineComment
  have hm : hasMarker (pre ++ '/' :: '/' :: (com ++ ['\n'])) = true :=
    hasMarker_of_contains pre (com ++ ['\n'])
  have hlast : (pre ++ '/' :: '/' :: (com ++ ['\n'])).getLast? = some '\n' := by
    rw [show pre ++ '/' :: '/' :: (com ++ ['\n']) =
      (pre ++ '/' :: '/' :: com) ++ ['\n'] from by simp]
    exact List.getLast?_concat _
  rw [if_pos ⟨hm, hlast⟩, truncAtMarker_append pre (com ++ ['\n']) hpre]

/-- Witness for comment_strip_collapses_line: a fully commented line (empty
pre-marker text) collapses to a bare newline, not to the empty string. -/
theorem comment_strip_collapses_line_witness :
    stripLineComment (([] : List Char) ++ '/' :: '/' :: (" hello".toList ++ ['\n'])) =
      ([] : List Char) ++ ['\n'] :=
  comment_strip_collapses_line [] (" hello".toList) (by decide) (by decide) (by decide)

/-- One step of the readlines model: prepend one character to the line
structure built from the rest of the file. -/
def lknStep (c : Char) (acc : List (List Char)) : List (List Char) :=
  if c = '\n' then ['\n'] :: acc
  else
    match acc with
    | [] => [[c]]
    | a :: as => (c :: a) :: as

/-- Line 159, readlines: the lines of the file content, each keeping its
terminating newline; a final unterminated line is kept as is; an empty file
yields no lines. -/
def linesKeepNl (l : List Char) : List (List Char) := l.foldr lknStep []

/-- Line 173: every backslash in the file path is replaced by a forward
slash before it is embedded in the directive. -/
def normalizeSlashes (path : List Char) : List Char :=
  path.map (fun c => if c = '\\' then '/' else c)

/-- Line 173: the line directive prepended in front of the lines of each
file, carrying the slash-normalized path. -/
def lineDirective (path : List Char) : List Char :=
  "#line 1 \"".toList ++ normalizeSlashes path ++ "\"\n".toList

/-- Lines 193-197: the suffix appended to the final element of the line
list (the program appends the two-character escaped newline to the line
whose number equals the length of the list). -/
def appendToLast (suf : List Char) : List (List Char) → List (List Char)
  | [] => []
  | [x] => [x ++ suf]
  | x :: y :: r => x :: appendToLast suf (y :: r)

/-- Lines 200-205: one step of the chunk accumulation: the escaped line is
appended to the current buffer, and a buffer longer than 100 characters is
flushed as a finished chunk. -/
def chunkStep (acc : List (List Char) × List Char) (ln : List Char) :
    List (List Char) × List Char :=
  if 100 < (acc.2 ++ ln).length then (acc.1 ++ [acc.2 ++ ln], [])
  else (acc.1, acc.2 ++ ln)

/-- Lines 176-205: the flushed chunks and the final buffer left after
processing all escaped lines of one file. -/
def chunkPair (lns : List (List Char)) : List (List Char) × List Char :=
  lns.foldl chunkStep ([], [])

/-- Lines 173-208: the escaped lines of one file: the inserted directive,
then every original line through the per-line transform, with the extra
escaped newline appended to the last line (the list is never empty because
of the directive, so for an empty file the append lands on the directive). -/
def escapedLines (path content : List Char) : List (List Char) :=
  appendToLast ['\\', 'n'] ((lineDirective path :: linesKeepNl content).map minifyLine)

/-- The content of the string constant generated for one file: the
concatenation of the flushed chunks of line 204 followed by the final chunk
of line 208. -/
def minifiedLiteral (path content : List Char) : List Char :=
  (chunkPair (escapedLines path content)).1.flatten ++ (chunkPair (escapedLines path content)).2

/-- The number of escaped-newline tokens of a literal, counted the way the
host-language lexer reads it: the number of newline characters produced by
unescaping.  A raw two-character substring count would miscount a doubled
backslash followed by the letter n. -/
def escapedNewlineTokens (s : List Char) : Nat := (unescape s).count '\n'

section CountLemmas

theorem chunk_fold_join :
    ∀ (lns cs : List (List Char)) (cur : List Char),
      (lns.foldl chunkStep (cs, cur)).1.flatten ++ (lns.foldl chunkStep (cs, cur)).2 =
        cs.flatten ++ cur ++ lns.flatten
  | [], cs, cur => by simp
  | ln :: lns, cs, cur => by
    rw [List.foldl_cons]
    by_cases h : 100 < (cur ++ ln).length
    · rw [show chunkStep (cs, cur) ln = (cs ++ [cur ++ ln], []) from by
        simp only [chunkStep]; rw [if_pos h]]
      rw [chunk_fold_join lns (cs ++ [cur ++ ln]) []]
      simp [List.append_assoc]
    · rw [show chunkStep (cs, cur) ln = (cs, cur ++ ln) from by
        simp only [chunkStep]; rw [if_neg h]]
      rw [chunk_fold_join lns cs (cur ++ ln)]
      simp [List.append_assoc]

theorem appendToLast_join (suf : List Char) :
    ∀ xs : List (List Char), xs ≠ [] → (appendToLast suf xs).flatten = xs.flatten ++ suf
  | [], h => absurd rfl h
  | [x], _ => by simp [appendToLast]
  | x :: y :: r, _ => by
    have ih := appendToLast_join suf (y :: r) (by simp)
    simp [appendToLast, ih]

theorem unescape_join_minify :
    ∀ (lns : List (List Char)) (b : List Char),
      unescape ((lns.map minifyLine).flatten ++ b) =
        (lns.map (fun ln => collapse (stripLineComment ln))).flatten ++ unescape b
  | [], b => by simp
  | ln :: lns, b => by
    rw [show ((ln :: lns).map minifyLine).flatten =
      minifyLine ln ++ (lns.map minifyLine).flatten from by simp]
    rw [List.append_assoc, unescape_minifyLine, unescape_join_minify lns b]
    simp [List.append_assoc]

theorem count_nl_collapse : ∀ z : List Char, (collapse z).count '\n' = z.count '\n'
  | [] => rfl
  | [c] => by
    by_cases h : ws c = true
    · rw [show collapse [c] = [' '] from by simp [collapse, h]]
      simp [List.count_cons, ws_ne_newline h]
    · rw [show collapse [c] = [c] from by simp [collapse, h]]
  | c :: d :: r => by
    by_cases h : (ws c && ws d) = true
    · rw [show collapse (c :: d :: r) = collapse (d :: r) from by
        simp [collapse, h]]
      rw [count_nl_collapse (d :: r)]
      have hc : ws c = true := by
        have h' := h
        rw [Bool.and_eq_true] at h'
        exact h'.1
      simp [List.count_cons, ws_ne_newline hc]
    · rw [show collapse (c :: d :: r) =
        (if ws c then ' ' else c) :: collapse (d :: r) from by
          simp only [collapse]; rw [if_neg (by simpa using h)]]
      rw [List.count_cons, List.count_cons, count_nl_collapse (d :: r)]
      by_cases hc : ws c = true
      · simp [hc, ws_ne_newline hc]
      · simp [hc]

theorem nl_not_mem_trunc :
    ∀ l : List Char, '\n' ∉ l.dropLast → hasMarker l = true → '\n' ∉ truncAtMarker l
  | [], _, hm => by simp [hasMarker] at hm
  | [c], _, hm => by simp [hasMarker] at hm
  | c :: d :: r, hdl, hm => by
    by_cases hcd : c = '/' ∧ d = '/'
    · rw [show truncAtMarker (c :: d :: r) = [] from by simp [truncAtMarker, hcd]]
      simp
    · rw [show truncAtMarker (c :: d :: r) = c :: truncAtMarker (d :: r) from by
        simp only [truncAtMarker]; rw [if_neg hcd]]
      have hm' : hasMarker (d :: r) = true := by
        simp only [hasMarker] at hm
        rwa [if_neg hcd] at hm
      have hdl' : '\n' ∉ (d :: r).dropLast ∧ c ≠ '\n' := by
        rw [show (c :: d :: r).dropLast = c :: (d :: r).dropLast from by
          simp [List.dropLast]] at hdl
        exact ⟨fun hmem => hdl (List.mem_cons_of_mem c hmem),
          fun hc => hdl (hc ▸ List.mem_cons_self c _)⟩
      intro hmem
      rcases List.mem_cons.mp hmem with hceq | hmem'
      · exact hdl'.2 hceq.symm
      · exact nl_not_mem_trunc (d :: r) hdl'.1 hm' hmem'

theorem count_nl_strip (ln : List Char) (h : '\n' ∉ ln.dropLast) :
    (stripLineComment ln).count '\n' = ln.count '\n' := by
  unfold stripLineComment
  by_cases hc : hasMarker ln = true ∧ ln.getLast? = some '\n'
  · rw [if_pos hc]
    have hne : ln ≠ [] := by
      intro h0
      rw [h0] at hc
      simp at hc
    have hlast : ln.getLast hne = '\n' := by
      have := List.getLast?_eq_getLast ln hne
      rw [hc.2] at this
      exact (Option.some.inj this).symm
    have hdecomp : ln.dropLast ++ [ln.getLast hne] = ln :=
      List.dropLast_append_getLast hne
    have hcount : ln.count '\n' = 1 := by
      rw [← hdecomp, List.count_append, hlast]
      rw [List.count_eq_zero.mpr h]
      simp
    rw [hcount, List.count_append]
    rw [List.count_eq_zero.mpr (nl_not_mem_trunc ln h hc.1)]
    simp
  · rw [if_neg hc]

theorem count_nl_map_join (segs : List (List Char))
    (h : ∀ seg ∈ segs, '\n' ∉ seg.dropLast) :
    ((segs.map (fun ln => collapse (stripLineComment ln))).flatten).count '\n' =
      (segs.flatten).count '\n' := by
  induction segs with
  | nil => rfl
  | cons seg segs ih =>
    have h1 : '\n' ∉ seg.dropLast := h seg (List.mem_cons_self seg segs)
    have h2 : ∀ s ∈ segs, '\n' ∉ s.dropLast :=
      fun s hs => h s (List.mem_cons_of_mem seg hs)
    simp only [List.map_cons, List.flatten_cons, List.count_append]
    rw [count_nl_collapse, count_nl_strip seg h1, ih h2]

theorem linesKeepNl_ne_nil {l : List Char} (h : l ≠ []) : linesKeepNl l ≠ [] := by
  cases l with
  | nil => exact absurd rfl h
  | cons c l' =>
    show lknStep c (linesKeepNl l') ≠ []
    unfold lknStep
    by_cases hc : c = '\n'
    · simp [hc]
    · rw [if_neg hc]
      cases linesKeepNl l' with
      | nil => simp
      | cons a as => simp

theorem linesKeepNl_join : ∀ l : List Char, (linesKeepNl l).flatten = l
  | [] => rfl
  | c :: l' => by
    show (lknStep c (linesKeepNl l')).flatten = c :: l'
    unfold lknStep
    by_cases hc : c = '\n'
    · rw [if_pos hc]
      rw [List.flatten_cons, linesKeepNl_join l', hc]
      rfl
    · rw [if_neg hc]
      cases hl : linesKeepNl l' with
      | nil =>
        have : l' = [] := by
          by_contra hne
          exact linesKeepNl_ne_nil hne hl
        rw [this]
        simp
      | cons a as =>
        have := linesKeepNl_join l'
        rw [hl] at this
        rw [List.flatten_cons] at this ⊢
        rw [← this]
        simp

theorem nl_only_last_of_mem :
    ∀ (l : List Char) (seg : List Char), seg ∈ linesKeepNl l → '\n' ∉ seg.dropLast
  | [], seg, hmem => by simp [linesKeepNl] at hmem
  | c :: l', seg, hmem => by
    have hmem' : seg ∈ lknStep c (linesKeepNl l') := hmem
    unfold lknStep at hmem'
    by_cases hc : c = '\n'
    · rw [if_pos hc] at hmem'
      rcases List.mem_cons.mp hmem' with rfl | h'
      · simp
      · exact nl_only_last_of_mem l' seg h'
    · rw [if_neg hc] at hmem'
      cases hl : linesKeepNl l' with
      | nil =>
        rw [hl] at hmem'
        simp only at hmem'
        rcases List.mem_singleton.mp hmem' with rfl
        simp
      | cons a as =>
        rw [hl] at hmem'
        simp only at hmem'
        rcases List.mem_cons.mp hmem' with rfl | h'
        · cases a with
          | nil => simp
          | cons e a' =>
            rw [show (c :: e :: a').dropLast = c :: (e :: a').dropLast from by
              simp [List.dropLast]]
            intro hx
            rcases List.mem_cons.mp hx with hceq | hx'
            · exact hc hceq.symm
            · exact nl_only_last_of_mem l' (e :: a')
                (hl ▸ List.mem_cons_self _ as) hx'
        · exact nl_only_last_of_mem l' seg (hl ▸ List.mem_cons_of_mem a h')

theorem nl_not_mem_normalizeSlashes {path : List Char} (hp : '\n' ∉ path) :
    '\n' ∉ normalizeSlashes path := by
  intro h
  rcases List.mem_map.mp h with ⟨c, hc, heq⟩
  by_cases hb : c = '\\'
  · rw [hb] at heq
    simp at heq
  · rw [if_neg hb] at heq
    exact hp (heq ▸ hc)

theorem lineDirective_dropLast {path : List Char} (hp : '\n' ∉ path) :
    '\n' ∉ (lineDirective path).dropLast := by
  unfold lineDirective
  rw [show ("#line 1 \"".toList) ++ normalizeSlashes path ++ "\"\n".toList =
    ("#line 1 \"".toList ++ normalizeSlashes path ++ ['"']) ++ ['\n'] from by simp]
  rw [List.dropLast_concat]
  intro h
  rcases List.mem_append.mp h with h' | h'
  · rcases List.mem_append.mp h' with h'' | h''
    · revert h''
      decide
    · exact nl_not_mem_normalizeSlashes hp h''
  · simp at h'

theorem lineDirective_count {path : List Char} (hp : '\n' ∉ path) :
    (lineDirective path).count '\n' = 1 := by
  unfold lineDirective
  rw [List.count_append, List.count_append]
  rw [List.count_eq_zero.mpr (show '\n' ∉ "#line 1 \"".toList from by decide)]
  rw [List.count_eq_zero.mpr (nl_not_mem_normalizeSlashes hp)]
  decide

end CountLemmas

/-- Concatenating the flushed chunks and the final chunk reconstructs the
exact escaped content, so the chunking of lines 200-208 is a pure
formatting device. -/
theorem minifiedLiteral_eq_flatten (path content : List Char) :
    minifiedLiteral path content = (escapedLines path content).flatten := by
  unfold minifiedLiteral chunkPair
  have h := chunk_fold_join (escapedLines path content) [] []
  simpa using h

/-- C3 (amended): the number of escaped-newline tokens in the generated
string constant equals the number of newline characters in the original
file plus two: one for the prepended line directive of line 173 and one for
the escaped newline unconditionally appended to the final line on line 197.
In particular commented lines still contribute their newline: they collapse
to empty lines, they do not disappear. -/
theorem escaped_newline_token_count (path content : List Char)
    (hp : '\n' ∉ path) :
    escapedNewlineTokens (minifiedLiteral path content) =
      content.count '\n' + 2 := by
  unfold escapedNewlineTokens
  rw [minifiedLiteral_eq_flatten]
  rw [show (escapedLines path content).flatten =
      ((lineDirective path :: linesKeepNl content).map minifyLine).flatten ++
        ['\\', 'n'] from by
    unfold escapedLines
    exact appendToLast_join _ _ (by simp)]
  rw [unescape_join_minify]
  rw [show unescape ['\\', 'n'] = ['\n'] from by decide]
  rw [List.count_append, List.map_cons, List.flatten_cons, List.count_append]
  rw [count_nl_collapse, count_nl_strip _ (lineDirective_dropLast hp),
    lineDirective_count hp]
  rw [count_nl_map_join _ (fun seg hseg => nl_only_last_of_mem content seg hseg)]
  rw [linesKeepNl_join]
  simp only [List.count_cons, List.count_nil]
  simp
  omega

/-- Witness for escaped_newline_token_count on the example scenario of the
spec: a commented line followed by a code line. -/
theorem escaped_newline_token_count_witness :
    escapedNewlineTokens
        (minifiedLiteral ("shaders/foo.hlsl".toList)
          ("// comment\nfloat x = 1.0;\n".toList)) =
      ("// comment\nfloat x = 1.0;\n".toList).count '\n' + 2 :=
  escaped_newline_token_count ("shaders/foo.hlsl".toList)
    ("// comment\nfloat x = 1.0;\n".toList) (by decide)

/-- Counterexample to C3 as stated: for the one-line file consisting of the
character a and a newline, the generated constant holds three escaped-newline
tokens (directive, the line itself, appended trailing token), not one, the
number of lines readlines yields for that file. -/
theorem escaped_newline_token_count_cex :
    ¬ (escapedNewlineTokens (minifiedLiteral ("p".toList) ("a\n".toList)) =
        (linesKeepNl ("a\n".toList)).length) := by
  decide

/-- Lines 41-45: the modification time of the output file, with the stat
failure of a missing file caught and replaced by 0. -/
def outputModTime (st : Option Nat) : Nat := st.getD 0

/-- Lines 48-57: the loop over the input files comparing each modification
time against the output modification time; the flag starts false and is set
whenever a strictly newer input is seen. -/
def rebuildNeeded (mtimes : List Nat) (st : Option Nat) : Bool :=
  mtimes.foldl (fun acc m => if outputModTime st < m then true else acc) false

/-- Line 61: the message printed when nothing is to be done. -/
def upToDateMsg (outputFile : List Char) : List Char :=
  "Nothing to be done, output header file ".toList ++ outputFile ++
    " up to date".toList

/-- Lines 59-62: the early-out of the freshness gate: when no rebuild is
needed the tool prints the up-to-date message and exits with code 0;
otherwise (none here) it falls through to generation. -/
def freshnessGateExit (outputFile : List Char) (mtimes : List Nat)
    (st : Option Nat) : Option (List Char × Nat) :=
  if rebuildNeeded mtimes st then none else some (upToDateMsg outputFile, 0)

theorem rebuild_foldl (st : Option Nat) :
    ∀ (mtimes : List Nat) (b : Bool),
      mtimes.foldl (fun acc m => if outputModTime st < m then true else acc) b =
        (b || mtimes.any (fun m => outputModTime st < m))
  | [], b => by simp
  | m :: ms, b => by
    rw [List.foldl_cons, rebuild_foldl st ms]
    by_cases h : outputModTime st < m
    · simp [h]
    · simp [h]

/-- C1 (amended): the freshness gate decides rebuild as a pure predicate over
mtimes: regeneration happens iff some input mtime is strictly greater than
the output mtime, where a missing output is treated as mtime 0.  A missing
output therefore forces a rebuild whenever some input has a positive mtime;
with no inputs, or with all input mtimes equal to 0, even a missing output
triggers no rebuild.  When no rebuild is needed the gate yields the
up-to-date message and exit code 0. -/
theorem freshness_gate_spec (mtimes : List Nat) (st : Option Nat)
    (outputFile : List Char) :
    (rebuildNeeded mtimes st = true ↔ ∃ m ∈ mtimes, outputModTime st < m) ∧
    (st = none → (∃ m ∈ mtimes, 0 < m) → rebuildNeeded mtimes st = true) ∧
    (rebuildNeeded mtimes st = false →
      freshnessGateExit outputFile mtimes st = some (upToDateMsg outputFile, 0)) := by
  have hiff : rebuildNeeded mtimes st = true ↔ ∃ m ∈ mtimes, outputModTime st < m := by
    unfold rebuildNeeded
    rw [rebuild_foldl]
    simp [List.any_eq_true]
  refine ⟨hiff, ?_, ?_⟩
  · intro hst hex
    subst hst
    exact hiff.mpr (by simpa [outputModTime] using hex)
  · intro hf
    unfold freshnessGateExit
    rw [hf]
    rfl

/-- Witness for freshness_gate_spec: with the output absent and a single
input of mtime 5, the gate decides to rebuild. -/
theorem freshness_gate_spec_witness : rebuildNeeded [5] none = true :=
  (freshness_gate_spec [5] none []).2.1 rfl ⟨5, by simp, by decide⟩

/-- Counterexample to C1 as stated: with the output file absent and one
input file whose mtime is 0, no rebuild is triggered; the gate takes the
up-to-date early exit with code 0, so a missing output does not by itself
force a rebuild. -/
theorem freshness_gate_cex :
    rebuildNeeded [0] none = false ∧
      freshnessGateExit ("out.h".toList) [0] none =
        some (upToDateMsg ("out.h".toList), 0) := by
  decide

/-- The Python substring containment test (the in operator on strings): the
pattern occurs in the text iff it starts at some suffix of the text. -/
def containsSub (pat : List Char) : List Char → Bool
  | [] => pat.isPrefixOf []
  | c :: rest => pat.isPrefixOf (c :: rest) || containsSub pat rest

/-- Lines 50-54: the same loop records as the entry-point file every file
whose path contains the entry-point name as a substring, each assignment
overwriting the previous one, starting from the empty string. -/
def selectEntryPoint (mainEntryPoint : List Char) (files : List (List Char)) :
    List Char :=
  files.foldl (fun acc f => if containsSub mainEntryPoint f then f else acc) []

theorem selectEntryPoint_foldl (mainEntryPoint : List Char) :
    ∀ (files : List (List Char)) (acc : List Char),
      files.foldl (fun acc f => if containsSub mainEntryPoint f then f else acc) acc =
        (files.filter (fun f => containsSub mainEntryPoint f)).getLastD acc
  | [], acc => by simp
  | f :: fs, acc => by
    rw [List.foldl_cons]
    by_cases h : containsSub mainEntryPoint f
    · rw [if_pos h, selectEntryPoint_foldl mainEntryPoint fs f]
      rw [show (f :: fs).filter (fun f => containsSub mainEntryPoint f) =
        f :: fs.filter (fun f => containsSub mainEntryPoint f) from by
          simp [List.filter_cons, h]]
      rw [List.getLastD_cons]
    · rw [if_neg h, selectEntryPoint_foldl mainEntryPoint fs acc]
      rw [show (f :: fs).filter (fun f => containsSub mainEntryPoint f) =
        fs.filter (fun f => containsSub mainEntryPoint f) from by
          simp [List.filter_cons, h]]

/-- C10: the entry point is selected by substring containment over the full
path, not by exact filename match: the candidates are exactly the discovered
files whose path contains the entry-point name as a substring, and the
selected one is the last candidate in discovery order (the empty string when
there is none). -/
theorem entry_point_selection (mainEntryPoint : List Char)
    (files : List (List Char)) :
    selectEntryPoint mainEntryPoint files =
      (files.filter (fun f => containsSub mainEntryPoint f)).getLastD [] :=
  selectEntryPoint_foldl mainEntryPoint files []

/-- The command-line values the script keeps after parsing (lines 23-35). -/
structure CmdArgs where
  hlslFolder : List Char
  outputFile : List Char
  slangc : List Char
  mainEntryPoint : List Char
  target : List Char
deriving DecidableEq, Repr

/-- Lines 14-35: argument parsing over argv (the script name is element 0).
A length outside 3..6 prints usage and exits -1 (modelled as none).  The
compiler path is stored only when the length is exactly 4; the entry-point
name is taken from argv 4 when the length is exactly 5, and overwritten
with argv 5 when the length is 6; the target variable is never assigned
from argv and stays empty. -/
def parseArgs (argv : List (List Char)) : Option CmdArgs :=
  if argv.length < 3 ∨ 6 < argv.length then none
  else some
    { hlslFolder := argv.getD 1 []
      outputFile := argv.getD 2 []
      slangc := if argv.length = 4 then argv.getD 3 [] else []
      mainEntryPoint :=
        if argv.length = 5 then argv.getD 4 []
        else if argv.length = 6 then argv.getD 5 []
        else ("MainEntryPoints".toList)
      target := [] }

/-- Lines 64-65: the Binary Packer stage runs exactly when the stored
compiler path and the recorded entry-point file are both nonempty. -/
def binaryPackerRuns (args : CmdArgs) (entryPointFile : List Char) : Bool :=
  decide (0 < args.slangc.length) && decide (0 < entryPointFile.length)

/-- C8 (code evidence): supplying the compiler as the third argument enables
the Binary Packer only for an argv of length exactly 4; with argv of length
5, where the compiler path and the entry-point name are both supplied, the
stored compiler path is empty and the packer does not run even though an
entry-point file was found. -/
theorem packer_gating_on_arg_count :
    (parseArgs [("minifyShadersFolder.py".toList), ("shaders".toList),
        ("out/Shaders.h".toList), ("/usr/bin/slangc".toList)]).map
      (fun a => binaryPackerRuns a ("shaders/MainEntryPoints.slang".toList)) =
        some true ∧
    (parseArgs [("minifyShadersFolder.py".toList), ("shaders".toList),
        ("out/Shaders.h".toList), ("/usr/bin/slangc".toList),
        ("MainEntryPoints".toList)]).map
      (fun a => binaryPackerRuns a ("shaders/MainEntryPoints.slang".toList)) =
        some false := by
  decide

/-- Lines 66-76: target resolution.  The condition of line 67 compares the
target against the three valid names with or (so it is true for every
value), and on it the platform default is chosen: metal on Darwin, dxil on
Windows, spirv on Linux, and a fatal exit (none) on any other platform. -/
def resolveTarget (target platformSystem : List Char) : Option (List Char) :=
  if ¬(target = "metal".toList) ∨ ¬(target = "dxil".toList) ∨
      ¬(target = "spirv".toList) then
    if platformSystem = "Darwin".toList then some ("metal".toList)
    else if platformSystem = "Windows".toList then some ("dxil".toList)
    else if platformSystem = "Linux".toList then some ("spirv".toList)
    else none
  else some target

/-- C9 (code evidence): a valid target passed as the fifth CLI argument is
never honored.  With six argv entries ending in metal, the parsed target is
still the empty string (the sixth entry in fact overwrites the entry-point
name), and even resolving the literal target metal on Linux yields the
platform default spirv, because the disjunctive comparison of line 67 is
always true. -/
theorem target_argument_never_honored :
    (parseArgs [("minifyShadersFolder.py".toList), ("shaders".toList),
        ("out/Shaders.h".toList), ("/usr/bin/slangc".toList),
        ("MainEntryPoints".toList), ("metal".toList)]).map
      (fun a => a.target) = some [] ∧
    (parseArgs [("minifyShadersFolder.py".toList), ("shaders".toList),
        ("out/Shaders.h".toList), ("/usr/bin/slangc".toList),
        ("MainEntryPoints".toList), ("metal".toList)]).map
      (fun a => a.mainEntryPoint) = some ("metal".toList) ∧
    resolveTarget ("metal".toList) ("Linux".toList) = some ("spirv".toList) := by
  decide

/-- A hexadecimal digit character, lowercase as Python bytes.hex yields. -/
def hexDigit (n : Nat) : Char :=
  if n < 10 then Char.ofNat (48 + n) else Char.ofNat (87 + n)

/-- The two lowercase hex digits of one byte. -/
def byteHex (b : Nat) : List Char :=
  [hexDigit (b / 16 % 16), hexDigit (b % 16)]

/-- Line 115-116: one word of the emitted array: the bytes at indices
4i+3, 4i+2, 4i+1, 4i in that order, hex encoded.  Indexing past the end of
the byte buffer raises IndexError in Python, which aborts the run: it is
modelled as none. -/
def packWord (data : List Nat) (i : Nat) : Option (List Char) :=
  match data.get? (4 * i + 3), data.get? (4 * i + 2),
      data.get? (4 * i + 1), data.get? (4 * i) with
  | some b3, some b2, some b1, some b0 =>
    some (byteHex b3 ++ byteHex b2 ++ byteHex b1 ++ byteHex b0)
  | _, _, _, _ => none

/-- The decimal digits of a number, used for the array length in the
declaration text. -/
def natChars (n : Nat) : List Char := (Nat.repr n).toList

/-- Lines 111-121: the emitted word-array text for a compiled binary: the
word count is the ceiling of the byte count over 4, each word is the
byte-swapped hex token prefixed with 0x, a comma-space separator follows
every token but the last, and a line break follows every eighth token.
The whole result is none when any word reads past the end of the buffer,
as happens for every byte count that is not a multiple of 4. -/
def buildWordArray (data : List Nat) (variableName : List Char) :
    Option (List Char) := do
  let numWords := (data.length + 3) / 4
  let toks ← (List.range numWords).mapM (packWord data)
  pure (("static const array<unsigned int, ".toList ++ natChars numWords ++
      "> ".toList ++ variableName ++ " = \x7b\n".toList)
    ++ (toks.enum.map (fun it =>
        "0x".toList ++ it.2 ++
        (if it.1 < numWords - 1 then (", ".toList) else []) ++
        (if it.1 % 8 = 7 then ['\n'] else []))).flatten
    ++ "\x7d;\n".toList)

/-- C5 (code evidence): for a binary of 4 bytes the packer emits exactly one
byte-swapped 8-hex-digit word, but for 5 bytes, where the claim asks for
ceil(5/4) = 2 entries, the word loop indexes past the end of the buffer and
the run aborts with no array emitted at all. -/
theorem word_array_out_of_bounds :
    buildWordArray [1, 2, 3, 4] ("g_sMainEntryPointsDXIL".toList) =
      some (("static const array<unsigned int, 1> g_sMainEntryPointsDXIL = \x7b\n0x04030201\x7d;\n").toList) ∧
    buildWordArray [1, 2, 3, 4, 5] ("g_sMainEntryPointsDXIL".toList) = none := by
  decide

/-- os.path.basename for posix paths: the part of the path after the last
forward slash. -/
def basename (p : List Char) : List Char :=
  (p.reverse.takeWhile (fun c => ¬(c = '/'))).reverse

/-- os.path.splitext, root component: the name up to its last dot, except
that when every character before that dot is itself a dot there is no
extension and the whole name is the root. -/
def splitextRoot (name : List Char) : List Char :=
  let root := ((name.reverse.dropWhile (fun c => ¬(c = '.'))).drop 1).reverse
  if root.any (fun c => ¬(c = '.')) then root else name

/-- Line 162: the per-file constant name: the marker g_s followed by the
base filename without its extension. -/
def stringName (path : List Char) : List Char :=
  "g_s".toList ++ splitextRoot (basename path)

/-- Line 136: the reserved identifier of the directory map. -/
def dirSymbolName : List Char := "g_sDirectory".toList

/-- Lines 137-138: the opening text of the directory map string. -/
def dirHeader : List Char :=
  "\n\t// Directory map, used to get file contents from HLSL filename.\n\tstatic const std::map<std::string , const std::string &> g_sDirectory = \x7b\n".toList

/-- Line 212: one directory entry, pairing the base filename with the
per-file constant name. -/
def dirEntryStr (path : List Char) : List Char :=
  "\t\t\x7b \"".toList ++ basename path ++ "\", ".toList ++ stringName path ++
    " \x7d".toList

/-- Line 147: the progress message printed for each file. -/
def progressMsg (n numFiles : Nat) (path : List Char) : List Char :=
  "\t Minifying file ".toList ++ natChars (n + 1) ++ " of ".toList ++
    natChars numFiles ++ ": ".toList ++ path

/-- Line 166: the diagnostic printed when a per-file constant name collides
with the reserved directory map identifier. -/
def collisionMsg (baseFilename : List Char) : List Char :=
  "Invalid HLSL filename ".toList ++ baseFilename ++
    " name conflict with built-in directory map named ".toList ++ dirSymbolName

/-- Line 126: the message printed before the minify loop starts. -/
def minifyingMsg (numFiles : Nat) (folder : List Char) : List Char :=
  "Minifying ".toList ++ natChars numFiles ++ " files from ".toList ++ folder

/-- Lines 141-142: the header comment and namespace opening written before
the loop; the namespace is the output filename without path or extension
(line 26). -/
def headerIntro (argv0 : List Char) (numFiles : Nat)
    (folder outFile : List Char) : List Char :=
  "// Minified HLSL header file.\n// Automatically generated by ".toList ++
    argv0 ++ " from ".toList ++ natChars numFiles ++
    " files in folder ".toList ++ folder ++ "\nnamespace ".toList ++
    splitextRoot (basename outFile) ++ " \x7b\n".toList

/-- Lines 169-170 and 202-208: the text block written to the header for one
file: the provenance comment, the constant declaration, every flushed chunk
wrapped in quotes with a continuation backslash, and the final chunk closed
with the semicolon. -/
def fileBlock (path content : List Char) : List Char :=
  "\n\t// Minified string created from ".toList ++ path ++
    "\n\tstatic const std::string ".toList ++ stringName path ++ " = \n".toList ++
    ((chunkPair (escapedLines path content)).1.map
      (fun ch => "\t\"".toList ++ ch ++ "\" \\\n".toList)).flatten ++
    "\t\t\"".toList ++ (chunkPair (escapedLines path content)).2 ++
    "\" \n\t;\n".toList

/-- Lines 145-216: the minify loop over the discovered files, carrying the
count of files already processed.  It yields the printed lines, the header
text written during the loop, and the body of the directory map string: for
each file a progress message, the collision diagnostic when the constant
name equals the reserved directory identifier (execution continues), the
file block appended to the header, and the directory entry followed by the
closing text on the last file and by a comma separator otherwise. -/
def minifyLoop (numFiles : Nat) :
    Nat → List (List Char × List Char) →
      List (List Char) × List Char × List Char
  | _, [] => ([], [], [])
  | n, (p, c) :: rest =>
    let r := minifyLoop numFiles (n + 1) rest
    (progressMsg n numFiles p ::
        ((if stringName p = dirSymbolName then [collisionMsg (basename p)]
          else []) ++ r.1),
      fileBlock p c ++ r.2.1,
      dirEntryStr p ++
        (if n + 1 = numFiles then ("\n\t\x7d;\n".toList) else (",\n".toList)) ++
        r.2.2)

/-- Lines 126-223: the whole generation stage after the freshness gate and
the optional packer: the console output and the full text of the primary
header (intro, per-file blocks, directory map, closing brace).  The file
contents are taken as given; the only fatal paths in this region of the
source are the file-open failures, which have no counterpart here. -/
def runMinifier (argv0 hlslFolder outputFile : List Char)
    (files : List (List Char × List Char)) :
    List (List Char) × List Char :=
  let r := minifyLoop files.length 0 files
  (minifyingMsg files.length hlslFolder :: r.1,
    headerIntro argv0 files.length hlslFolder outputFile ++ r.2.1 ++
      dirHeader ++ r.2.2 ++ "\x7d\n".toList)

section DirectoryLemmas

theorem minifyLoop_out (numFiles : Nat) :
    ∀ (files : List (List Char × List Char)) (n : Nat),
      (minifyLoop numFiles n files).2.1 =
        (files.map (fun pc => fileBlock pc.1 pc.2)).flatten
  | [], _ => rfl
  | (p, c) :: rest, n => by
    show fileBlock p c ++ (minifyLoop numFiles (n + 1) rest).2.1 = _
    rw [minifyLoop_out numFiles rest (n + 1)]
    simp

theorem collision_msg_mem (numFiles : Nat) :
    ∀ (files : List (List Char × List Char)) (n : Nat) (p c : List Char),
      (p, c) ∈ files → stringName p = dirSymbolName →
      collisionMsg (basename p) ∈ (minifyLoop numFiles n files).1
  | [], _, p, c, hmem, _ => absurd hmem (List.not_mem_nil _)
  | (q, d) :: rest, n, p, c, hmem, hcol => by
    rcases List.mem_cons.mp hmem with heq | hrest
    · have hq : q = p := (Prod.mk.injEq q d p c ▸ heq.symm).1
      subst hq
      show collisionMsg (basename q) ∈
        progressMsg n numFiles q ::
          ((if stringName q = dirSymbolName then [collisionMsg (basename q)]
            else []) ++ (minifyLoop numFiles (n + 1) rest).1)
      rw [if_pos hcol]
      exact List.mem_cons_of_mem _ (List.mem_append_left _ (List.mem_singleton.mpr rfl))
    · show collisionMsg (basename p) ∈
        progressMsg n numFiles q ::
          ((if stringName q = dirSymbolName then [collisionMsg (basename q)]
            else []) ++ (minifyLoop numFiles (n + 1) rest).1)
      exact List.mem_cons_of_mem _
        (List.mem_append_right _ (collision_msg_mem numFiles rest (n + 1) p c hrest hcol))

theorem intercalate_single (sep x : List Char) :
    List.intercalate sep [x] = x := by
  simp [List.intercalate]

theorem intercalate_cons₂ (sep x y : List Char) (zs : List (List Char)) :
    List.intercalate sep (x :: y :: zs) = x ++ sep ++ List.intercalate sep (y :: zs) := by
  simp [List.intercalate, List.intersperse]

theorem dir_body_closed (numFiles : Nat) :
    ∀ (files : List (List Char × List Char)) (n : Nat),
      n + files.length = numFiles → files ≠ [] →
      (minifyLoop numFiles n files).2.2 =
        List.intercalate (",\n".toList) (files.map (fun pc => dirEntryStr pc.1)) ++
          "\n\t\x7d;\n".toList
  | [], _, _, hne => absurd rfl hne
  | [(p, c)], n, hlen, _ => by
    show dirEntryStr p ++
        (if n + 1 = numFiles then ("\n\t\x7d;\n".toList) else (",\n".toList)) ++
        (minifyLoop numFiles (n + 1) []).2.2 = _
    have h1 : n + 1 = numFiles := by simpa using hlen
    rw [if_pos h1]
    show dirEntryStr p ++ "\n\t\x7d;\n".toList ++ [] = _
    rw [List.map_cons, List.map_nil, intercalate_single]
    simp
  | (p, c) :: (q, d) :: rest, n, hlen, _ => by
    show dirEntryStr p ++
        (if n + 1 = numFiles then ("\n\t\x7d;\n".toList) else (",\n".toList)) ++
        (minifyLoop numFiles (n + 1) ((q, d) :: rest)).2.2 = _
    have h1 : ¬(n + 1 = numFiles) := by
      simp only [List.length_cons] at hlen
      omega
    rw [if_neg h1]
    rw [dir_body_closed numFiles ((q, d) :: rest) (n + 1)
      (by simp only [List.length_cons] at hlen ⊢; omega) (by simp)]
    simp only [List.map_cons]
    rw [intercalate_cons₂]
    simp [List.append_assoc]

end DirectoryLemmas

/-- C6: the emitted directory table body contains exactly one entry per
input file, in discovery order, each entry pairing the base filename with
the constant name built from the marker g_s and the base name without
extension; the entries are joined by comma separators so every entry but
the last has a trailing separator, and the closing text follows the last
entry.  The run reaches output generation only when the rebuild flag was
set by some file, so the file list is nonempty. -/
theorem directory_table_entries (files : List (List Char × List Char))
    (h : files ≠ []) :
    (minifyLoop files.length 0 files).2.2 =
      List.intercalate (",\n".toList)
        (files.map (fun pc =>
          "\t\t\x7b \"".toList ++ basename pc.1 ++ "\", ".toList ++
            ("g_s".toList ++ splitextRoot (basename pc.1)) ++ " \x7d".toList)) ++
      "\n\t\x7d;\n".toList := by
  have hd := dir_body_closed files.length files 0 (by simp) h
  rw [hd]
  rfl

/-- Witness for directory_table_entries at two concrete files. -/
theorem directory_table_entries_witness :
    (minifyLoop
        ([(("shaders/Common.hlsl".toList), ("x\n".toList)),
          (("shaders/Main.slang".toList), ("y\n".toList))] :
          List (List Char × List Char)).length 0
        [(("shaders/Common.hlsl".toList), ("x\n".toList)),
          (("shaders/Main.slang".toList), ("y\n".toList))]).2.2 =
      List.intercalate (",\n".toList)
        (([(("shaders/Common.hlsl".toList), ("x\n".toList)),
          (("shaders/Main.slang".toList), ("y\n".toList))] :
          List (List Char × List Char)).map (fun pc =>
          "\t\t\x7b \"".toList ++ basename pc.1 ++ "\", ".toList ++
            ("g_s".toList ++ splitextRoot (basename pc.1)) ++ " \x7d".toList)) ++
      "\n\t\x7d;\n".toList :=
  directory_table_entries _ (by simp)

/-- C7: when a derived per-file constant name equals the reserved directory
identifier, the collision diagnostic naming the file and the reserved
identifier is among the printed lines, and the run still produces the full
header, intro, every file block, directory map and closing brace included;
no abort path exists in this region of the source. -/
theorem collision_reported_not_fatal (argv0 folder outFile : List Char)
    (files : List (List Char × List Char)) (p c : List Char)
    (hmem : (p, c) ∈ files) (hcol : stringName p = dirSymbolName) :
    collisionMsg (basename p) ∈ (runMinifier argv0 folder outFile files).1 ∧
    (runMinifier argv0 folder outFile files).2 =
      headerIntro argv0 files.length folder outFile ++
        (files.map (fun pc => fileBlock pc.1 pc.2)).flatten ++
        dirHeader ++ (minifyLoop files.length 0 files).2.2 ++ "\x7d\n".toList := by
  constructor
  · exact List.mem_cons_of_mem _
      (collision_msg_mem files.length files 0 p c hmem hcol)
  · show headerIntro argv0 files.length folder outFile ++
        (minifyLoop files.length 0 files).2.1 ++ dirHeader ++
        (minifyLoop files.length 0 files).2.2 ++ "\x7d\n".toList = _
    rw [minifyLoop_out files.length files 0]

/-- Witness for collision_reported_not_fatal: the file Directory.hlsl
derives the constant name g_sDirectory, which is exactly the reserved
identifier. -/
theorem collision_reported_not_fatal_witness :
    collisionMsg (basename ("dir/Directory.hlsl".toList)) ∈
      (runMinifier ("minifyShadersFolder.py".toList) ("dir".toList)
        ("out/Shaders.h".toList)
        [(("dir/Directory.hlsl".toList), ("x\n".toList))]).1 ∧
    (runMinifier ("minifyShadersFolder.py".toList) ("dir".toList)
        ("out/Shaders.h".toList)
        [(("dir/Directory.hlsl".toList), ("x\n".toList))]).2 =
      headerIntro ("minifyShadersFolder.py".toList)
          ([(("dir/Directory.hlsl".toList), ("x\n".toList))] :
            List (List Char × List Char)).length
          ("dir".toList) ("out/Shaders.h".toList) ++
        (([(("dir/Directory.hlsl".toList), ("x\n".toList))] :
          List (List Char × List Char)).map
            (fun pc => fileBlock pc.1 pc.2)).flatten ++
        dirHeader ++
        (minifyLoop ([(("dir/Directory.hlsl".toList), ("x\n".toList))] :
          List (List Char × List Char)).length 0
          [(("dir/Directory.hlsl".toList), ("x\n".toList))]).2.2 ++
        "\x7d\n".toList :=
  collision_reported_not_fatal ("minifyShadersFolder.py".toList) ("dir".toList)
    ("out/Shaders.h".toList) [(("dir/Directory.hlsl".toList), ("x\n".toList))]
    ("dir/Directory.hlsl".toList) ("x\n".toList) (by simp) (by decide)

end MinifyShaders
